import Mathlib

/-!
Verification development for the support/resistance level detector
(`calculate_support_resistance` in `app.py`, lines 80-105).

The pipeline is embedded shallowly over `ℚ`:

* prices are exact rationals instead of IEEE doubles (all inputs used in the
  theorems below are small integer-valued prices, on which float and rational
  arithmetic agree);
* a pandas `DataFrame` becomes the structure `Frame`; the in-place mutation
  performed by `df.reset_index(inplace=True)` and `df.index = date` is made
  explicit by returning the post-call frame alongside the result;
* `NaN` cells of the rolling series become `Option ℚ` with `none`
  (pandas `drop_duplicates` treats `NaN` as equal to `NaN`, which matches
  equality on `Option ℚ`);
* the Python exceptions raised by scikit-learn (`ValueError`) become the
  `Except` monad with error type `CoreError`; the constructors
  `insufficientHistory` and `invalidParameter` never occur in the embedded
  code, they exist only to state the error taxonomy of the specification;
* `pd.concat([max_waves, min_waves]).sort_index()` is modelled as a stable
  merge by original row index with the `max_waves` row first on ties
  (the concatenation order);
* `AgglomerativeClustering(linkage='ward')` on the points `(value, 1)` is
  modelled as exact agglomerative ward clustering on the one-dimensional
  values (the constant second coordinate contributes zero to every centroid
  distance, so it never influences a merge).  Cluster ids are assigned by a
  deterministic relabelling scheme; scikit-learn assigns ids differently, but
  a different id assignment only permutes the order in which the per-cluster
  maxima are emitted, and no theorem below depends on that order;
* `waves.groupby('clusters')['waves'].idxmax()` iterates over the cluster ids
  actually present, in ascending order, and returns for each group the frame
  index *label* of the first row attaining the group maximum;
* `waves.loc[label_list]` returns, for each requested label in order, every
  row of the frame carrying that label (pandas duplicate-label indexing);
* `waves2.waves.drop_duplicates(keep='first', inplace=True)` (line 103 of
  `app.py`) mutates a copied column and never writes back into `waves2`
  (pandas chained-assignment), so it is embedded as what it is: a no-op.
-/

/-- One row of the intermediate wave frame: original bar index (the frame
index label after `reset_index`), the rolling-extremum value (`none` = NaN),
and the polarity column (`1` for rolling maxima, `-1` for rolling minima). -/
structure WRow where
  idx : Nat
  wave : Option ℚ
  pol : Int
deriving DecidableEq

/-- A wave row after `.dropna()`: the value is known to be present. -/
structure CRow where
  idx : Nat
  value : ℚ
  pol : Int
deriving DecidableEq

/-- The OHLCV data frame owned by the caller.  `extraCols` records columns
materialised out of the index by `reset_index` (they hold index values). -/
structure Frame where
  index : List String
  Open : List ℚ
  High : List ℚ
  Low : List ℚ
  Close : List ℚ
  Volume : List ℚ
  extraCols : List (String × List String)
deriving DecidableEq

/-- Errors of the core.  The embedded code only ever produces `valueError`
(the Python `ValueError` raised by scikit-learn); `insufficientHistory` and
`invalidParameter` state the error kinds named by the specification. -/
inductive CoreError where
  | insufficientHistory
  | invalidParameter
  | valueError (msg : String)
deriving DecidableEq

/-- Maximum of a list of rationals, `none` on the empty list. -/
def listMax : List ℚ → Option ℚ
  | [] => none
  | x :: xs =>
    some (match listMax xs with
          | none => x
          | some m => max x m)

/-- Minimum of a list of rationals, `none` on the empty list. -/
def listMin : List ℚ → Option ℚ
  | [] => none
  | x :: xs =>
    some (match listMin xs with
          | none => x
          | some m => min x m)

/-- `df.High.rolling(w).max()` at position `i`: `NaN` while the window is not
yet full, otherwise the maximum of the last `w` entries ending at `i`. -/
def windowMax (xs : List ℚ) (w i : Nat) : Option ℚ :=
  if w ≤ i + 1 then listMax ((xs.drop (i + 1 - w)).take w) else none

/-- `df.Low.rolling(w).min()` at position `i`. -/
def windowMin (xs : List ℚ) (w i : Nat) : Option ℚ :=
  if w ≤ i + 1 then listMin ((xs.drop (i + 1 - w)).take w) else none

/-- The rolling-max series tagged with polarity `+1`
(`max_waves` before `drop_duplicates`, app.py lines 84 and 87). -/
def maxRows (highs : List ℚ) (w : Nat) : List WRow :=
  (List.range highs.length).map (fun i => ⟨i, windowMax highs w i, 1⟩)

/-- The rolling-min series tagged with polarity `-1`
(`min_waves` before `drop_duplicates`, app.py lines 85 and 88). -/
def minRows (lows : List ℚ) (w : Nat) : List WRow :=
  (List.range lows.length).map (fun i => ⟨i, windowMin lows w i, -1⟩)

/-- `DataFrame.drop_duplicates('waves')`: keep the first row carrying each
distinct value of the keyed column, dropping every later recurrence
(adjacent or not).  `seen` accumulates the values already emitted. -/
def dropDupsBy (f : WRow → Option ℚ) : List WRow → List (Option ℚ) → List WRow
  | [], _ => []
  | r :: rs, seen =>
    if f r ∈ seen then dropDupsBy f rs seen
    else r :: dropDupsBy f rs (f r :: seen)

/-- `max_waves.drop_duplicates('waves', inplace=True)` (app.py line 89). -/
def max_waves (highs : List ℚ) (w : Nat) : List WRow :=
  dropDupsBy (fun r => r.wave) (maxRows highs w) []

/-- `min_waves.drop_duplicates('waves', inplace=True)` (app.py line 90). -/
def min_waves (lows : List ℚ) (w : Nat) : List WRow :=
  dropDupsBy (fun r => r.wave) (minRows lows w) []

/-- Inner loop of the stable merge: `a :: rest` is the remaining left list,
`f` merges `rest` with an arbitrary right list. -/
def mergeGo (a : WRow) (rest : List WRow) (f : List WRow → List WRow) :
    List WRow → List WRow
  | [] => a :: rest
  | b :: bs =>
    if a.idx ≤ b.idx then a :: f (b :: bs) else b :: mergeGo a rest f bs

/-- `pd.concat([max_waves, min_waves]).sort_index()` (app.py line 92):
both inputs are sorted by `idx`, so the sort is a stable merge with the
`max_waves` row first when both frames hold a row with the same label. -/
def mergeIdx : List WRow → List WRow → List WRow
  | [], bs => bs
  | a :: as, bs => mergeGo a as (mergeIdx as) bs

/-- `waves[waves[0] != waves[0].shift()]` (app.py line 93): keep a row iff
its polarity differs from the polarity of the immediately preceding row of
the frame (the first row is always kept, its `shift` partner being NaN). -/
def shiftKeep : Option Int → List WRow → List WRow
  | _, [] => []
  | none, r :: rs => r :: shiftKeep (some r.pol) rs
  | some p, r :: rs =>
    if r.pol = p then shiftKeep (some r.pol) rs
    else r :: shiftKeep (some r.pol) rs

/-- The polarity-alternation filter applied to the merged frame. -/
def shiftFilter (l : List WRow) : List WRow := shiftKeep none l

/-- The deduplicated wave series handed to the clusterer: merge, apply the
polarity filter, then `.dropna()` (rows whose wave value is NaN vanish). -/
def cwavesOf (highs lows : List ℚ) (w : Nat) : List CRow :=
  (shiftFilter (mergeIdx (max_waves highs w) (min_waves lows w))).filterMap
    (fun r => r.wave.map (fun v => ⟨r.idx, v, r.pol⟩))

/-- Size of cluster `c` under the label assignment `asg`. -/
def labelCount (asg : List Nat) (c : Nat) : Nat := asg.count c

/-- Sum of the values assigned to cluster `c`. -/
def labelSum (vals : List ℚ) (asg : List Nat) (c : Nat) : ℚ :=
  ((vals.zip asg).filter (fun p => decide (p.2 = c))).foldr (fun p s => p.1 + s) 0

/-- Ward linkage distance between clusters `a` and `b`:
`|A||B|/(|A|+|B|) * (centroid A - centroid B)^2`.  The constant second
coordinate of the embedded points contributes zero and is omitted. -/
def wardD (vals : List ℚ) (asg : List Nat) (a b : Nat) : ℚ :=
  let na : ℚ := (labelCount asg a : ℚ)
  let nb : ℚ := (labelCount asg b : ℚ)
  let ca := labelSum vals asg a / na
  let cb := labelSum vals asg b / nb
  na * nb / (na + nb) * (ca - cb) ^ 2

/-- All pairs `(a, b)` with `a < b < m`. -/
def pairList (m : Nat) : List (Nat × Nat) :=
  ((List.range m).map (fun b => (List.range b).map (fun a => (a, b)))).flatten

/-- One step of the minimum-distance scan over candidate merge pairs. -/
def bpStep (vals : List ℚ) (asg : List Nat) (acc : Option (Nat × Nat × ℚ))
    (p : Nat × Nat) : Option (Nat × Nat × ℚ) :=
  let d := wardD vals asg p.1 p.2
  match acc with
  | none => some (p.1, p.2, d)
  | some q => if d < q.2.2 then some (p.1, p.2, d) else some q

/-- The pair of current cluster ids with minimal ward distance (first such
pair in `pairList` order), `none` when fewer than two clusters remain. -/
def bestPair (vals : List ℚ) (asg : List Nat) (m : Nat) : Option (Nat × Nat) :=
  ((pairList m).foldl (bpStep vals asg) none).map (fun q => (q.1, q.2.1))

/-- Relabelling after merging cluster `b` into cluster `a` (`a < b`): members
of `b` join `a`, ids above `b` slide down to keep the ids contiguous. -/
def relabel (a b l : Nat) : Nat :=
  if l = b then a else if b < l then l - 1 else l

/-- One agglomerative merge step on the state (labels, cluster count). -/
def mergeOnce (vals : List ℚ) (st : List Nat × Nat) : List Nat × Nat :=
  match bestPair vals st.1 st.2 with
  | none => st
  | some p => (st.1.map (relabel p.1 p.2), st.2 - 1)

/-- `t` agglomerative merge steps. -/
def agglom (vals : List ℚ) : Nat → List Nat × Nat → List Nat × Nat
  | 0, st => st
  | t + 1, st => agglom vals t (mergeOnce vals st)

/-- `AgglomerativeClustering(n_clusters=k, linkage='ward').fit_predict`
label vector: start from singleton clusters and merge down to `k`. -/
def labelsOf (vals : List ℚ) (k : Nat) : List Nat :=
  (agglom vals (vals.length - k) (List.range vals.length, vals.length)).1

/-- `waves.groupby('clusters')['waves'].idxmax()` for one group: the frame
index label of the first row of cluster `c` attaining the group maximum. -/
def idxmaxFor (lrows : List (CRow × Nat)) (c : Nat) : Option Nat :=
  let grp := lrows.filter (fun rl => decide (rl.2 = c))
  match listMax (grp.map (fun rl => rl.1.value)) with
  | none => none
  | some m => (grp.find? (fun rl => decide (rl.1.value = m))).map (fun rl => rl.1.idx)

/-- `waves.loc[labels]` (app.py line 101): for each requested index label in
order, every frame row carrying that label. -/
def locSelect (ws : List CRow) : List Nat → List CRow
  | [] => []
  | L :: Ls => ws.filter (fun r => decide (r.idx = L)) ++ locSelect ws Ls

/-- The selector stage (app.py lines 100-105) on a clusterable wave series:
cluster, group by ascending cluster id, take each group's `idxmax` label,
fetch every row carrying a selected label, and read the value column.  The
final `drop_duplicates(inplace=True)` of line 103 acts on a copied column
and is therefore absent from the returned value. -/
def levelsOf (cw : List CRow) (k : Nat) : List ℚ :=
  let vals := cw.map (fun r => r.value)
  let labels := labelsOf vals k
  let lrows := cw.zip labels
  let keys := (List.range k).filter (fun c => decide (c ∈ labels))
  let idxSer := keys.filterMap (fun c => idxmaxFor lrows c)
  (locSelect cw idxSer).map (fun r => r.value)

/-- The core pipeline on the High/Low columns (app.py lines 84-105).
Guard order mirrors scikit-learn: `n_clusters` must be positive, the data
must hold at least two samples, and no more clusters than samples may be
requested; each failure is a Python `ValueError`. -/
def corePipeline (highs lows : List ℚ) (w k : Nat) : Except CoreError (List ℚ) :=
  let cw := cwavesOf highs lows w
  if k = 0 then .error (.valueError "n_clusters must be positive")
  else if cw.length < 2 then .error (.valueError "need at least 2 samples")
  else if cw.length < k then .error (.valueError "cannot extract more clusters than samples")
  else .ok (levelsOf cw k)

/-- `calculate_support_resistance(df, rolling_wave_length, num_clusters)`
(app.py lines 80-105).  The returned frame is the caller frame after the
call: `reset_index(inplace=True)` replaces the index by a range index and
materialises the old index as a new column; on success line 102 restores
the original index (the extra column stays); when scikit-learn raises, the
restore on line 102 is never reached. -/
def calculate_support_resistance (df : Frame) (w k : Nat) :
    Frame × Except CoreError (List ℚ) :=
  let n := df.High.length
  let dfR : Frame :=
    { df with index := (List.range n).map (fun i => toString i),
              extraCols := df.extraCols ++ [("Date", df.index)] }
  match corePipeline dfR.High dfR.Low w k with
  | .ok ls => ({ dfR with index := df.index }, .ok ls)
  | .error e => (dfR, .error e)

/-- A flat bar series: `n` bars with every OHLCV field equal to `100`. -/
def flatFrame (n : Nat) : Frame :=
  { index := (List.range n).map (fun i => toString i)
    Open := List.replicate n 100
    High := List.replicate n 100
    Low := List.replicate n 100
    Close := List.replicate n 100
    Volume := List.replicate n 100
    extraCols := [] }

/-- A two-bar frame whose Close column is strictly increasing while the High
column is strictly decreasing. -/
def frameC8 : Frame :=
  { index := ["a", "b"], Open := [1, 2], High := [10, 9], Low := [8, 7],
    Close := [1, 2], Volume := [5, 5], extraCols := [] }

/-- A one-bar frame (insufficient history for a window of length 2). -/
def frameOneBar : Frame :=
  { index := ["a"], Open := [3], High := [4], Low := [2], Close := [3],
    Volume := [7], extraCols := [] }

/-- A two-bar frame used to exhibit the frame mutation left by the call. -/
def frameC7 : Frame :=
  { index := ["a", "b"], Open := [100, 100], High := [100, 100],
    Low := [100, 100], Close := [100, 100], Volume := [5, 6], extraCols := [] }

/-- Same High/Low columns as `frameC7` but different index, Open, Close and
Volume columns (for the noninterference claim). -/
def frameC10 : Frame :=
  { index := ["x", "y"], Open := [7, 8], High := [100, 100],
    Low := [100, 100], Close := [9, 1], Volume := [50, 60], extraCols := [] }

deriving instance DecidableEq for Except

/-! ### Basic facts about the list extremum helpers -/

theorem listMax_mem : ∀ {l : List ℚ} {m : ℚ}, listMax l = some m → m ∈ l := by
  intro l
  induction l with
  | nil => intro m h; simp [listMax] at h
  | cons x xs ih =>
    intro m h
    rw [listMax] at h
    cases hx : listMax xs with
    | none =>
      rw [hx] at h
      simp only [Option.some.injEq] at h
      subst h
      exact List.mem_cons_self _ _
    | some m0 =>
      rw [hx] at h
      simp only [Option.some.injEq] at h
      rcases max_choice x m0 with hc | hc
      · rw [hc] at h; subst h; exact List.mem_cons_self _ _
      · rw [hc] at h; subst h; exact List.mem_cons_of_mem _ (ih hx)

theorem listMax_ge : ∀ {l : List ℚ} {m x : ℚ}, x ∈ l → listMax l = some m → x ≤ m := by
  intro l
  induction l with
  | nil => intro m x hx _; simp at hx
  | cons y ys ih =>
    intro m x hx h
    rw [listMax] at h
    cases hy : listMax ys with
    | none =>
      rw [hy] at h
      simp only [Option.some.injEq] at h
      cases ys with
      | nil =>
        subst h
        simp only [List.mem_singleton] at hx
        subst hx; exact le_refl _
      | cons z zs => rw [listMax] at hy; simp at hy
    | some m0 =>
      rw [hy] at h
      simp only [Option.some.injEq] at h
      subst h
      rcases List.mem_cons.1 hx with hx | hx
      · subst hx; exact le_max_left _ _
      · exact le_trans (ih hx hy) (le_max_right _ _)

theorem listMax_isSome {l : List ℚ} (h : l ≠ []) : ∃ m, listMax l = some m := by
  cases l with
  | nil => exact absurd rfl h
  | cons x xs => exact ⟨_, rfl⟩

theorem listMin_mem : ∀ {l : List ℚ} {m : ℚ}, listMin l = some m → m ∈ l := by
  intro l
  induction l with
  | nil => intro m h; simp [listMin] at h
  | cons x xs ih =>
    intro m h
    rw [listMin] at h
    cases hx : listMin xs with
    | none =>
      rw [hx] at h
      simp only [Option.some.injEq] at h
      subst h
      exact List.mem_cons_self _ _
    | some m0 =>
      rw [hx] at h
      simp only [Option.some.injEq] at h
      rcases min_choice x m0 with hc | hc
      · rw [hc] at h; subst h; exact List.mem_cons_self _ _
      · rw [hc] at h; subst h; exact List.mem_cons_of_mem _ (ih hx)

theorem listMin_le : ∀ {l : List ℚ} {m x : ℚ}, x ∈ l → listMin l = some m → m ≤ x := by
  intro l
  induction l with
  | nil => intro m x hx _; simp at hx
  | cons y ys ih =>
    intro m x hx h
    rw [listMin] at h
    cases hy : listMin ys with
    | none =>
      rw [hy] at h
      simp only [Option.some.injEq] at h
      cases ys with
      | nil =>
        subst h
        simp only [List.mem_singleton] at hx
        subst hx; exact le_refl _
      | cons z zs => rw [listMin] at hy; simp at hy
    | some m0 =>
      rw [hy] at h
      simp only [Option.some.injEq] at h
      subst h
      rcases List.mem_cons.1 hx with hx | hx
      · subst hx; exact min_le_left _ _
      · exact le_trans (min_le_right _ _) (ih hx hy)

/-! ### Facts about the dedup, merge and polarity-filter stages -/

theorem dropDupsBy_sublist (f : WRow → Option ℚ) :
    ∀ (l : List WRow) (seen : List (Option ℚ)), (dropDupsBy f l seen).Sublist l := by
  intro l
  induction l with
  | nil => intro seen; simp [dropDupsBy]
  | cons r rs ih =>
    intro seen
    rw [dropDupsBy]
    by_cases h : f r ∈ seen
    · rw [if_pos h]; exact (ih seen).trans (List.sublist_cons_self r rs)
    · rw [if_neg h]; exact (ih (f r :: seen)).cons₂ r

theorem mem_of_mem_dropDupsBy {f : WRow → Option ℚ} {l : List WRow}
    {seen : List (Option ℚ)} {r : WRow} (h : r ∈ dropDupsBy f l seen) : r ∈ l :=
  (dropDupsBy_sublist f l seen).mem h

theorem dropDupsBy_not_seen (f : WRow → Option ℚ) :
    ∀ (l : List WRow) (seen : List (Option ℚ)) (r : WRow),
      r ∈ dropDupsBy f l seen → f r ∉ seen := by
  intro l
  induction l with
  | nil => intro seen r h; simp [dropDupsBy] at h
  | cons x xs ih =>
    intro seen r h
    rw [dropDupsBy] at h
    by_cases hx : f x ∈ seen
    · rw [if_pos hx] at h; exact ih seen r h
    · rw [if_neg hx] at h
      rcases List.mem_cons.1 h with h | h
      · subst h; exact hx
      · intro hseen
        exact ih (f x :: seen) r h (List.mem_cons_of_mem _ hseen)

theorem dropDupsBy_nodup (f : WRow → Option ℚ) :
    ∀ (l : List WRow) (seen : List (Option ℚ)),
      ((dropDupsBy f l seen).map f).Nodup := by
  intro l
  induction l with
  | nil => intro seen; simp [dropDupsBy]
  | cons x xs ih =>
    intro seen
    rw [dropDupsBy]
    by_cases hx : f x ∈ seen
    · rw [if_pos hx]; exact ih seen
    · rw [if_neg hx]
      rw [List.map_cons, List.nodup_cons]
      refine ⟨?_, ih (f x :: seen)⟩
      intro hmem
      rcases List.mem_map.1 hmem with ⟨r, hr, hfr⟩
      exact dropDupsBy_not_seen f xs (f x :: seen) r hr (hfr ▸ List.mem_cons_self _ _)

theorem dropDupsBy_covers (f : WRow → Option ℚ) :
    ∀ (l : List WRow) (seen : List (Option ℚ)) (r : WRow), r ∈ l →
      f r ∈ seen ∨ ∃ s ∈ dropDupsBy f l seen, f s = f r := by
  intro l
  induction l with
  | nil => intro seen r h; simp at h
  | cons x xs ih =>
    intro seen r h
    rw [dropDupsBy]
    by_cases hx : f x ∈ seen
    · rw [if_pos hx]
      rcases List.mem_cons.1 h with h | h
      · exact Or.inl (h ▸ hx)
      · exact ih seen r h
    · rw [if_neg hx]
      rcases List.mem_cons.1 h with h | h
      · exact Or.inr ⟨x, List.mem_cons_self _ _, by rw [h]⟩
      · rcases ih (f x :: seen) r h with hs | ⟨s, hs, hfs⟩
        · rcases List.mem_cons.1 hs with hs | hs
          · exact Or.inr ⟨x, List.mem_cons_self _ _, hs.symm⟩
          · exact Or.inl hs
        · exact Or.inr ⟨s, List.mem_cons_of_mem _ hs, hfs⟩

theorem mergeIdx_cons_cons (a b : WRow) (as bs : List WRow) :
    mergeIdx (a :: as) (b :: bs) =
      if a.idx ≤ b.idx then a :: mergeIdx as (b :: bs)
      else b :: mergeIdx (a :: as) bs := rfl

theorem mem_mergeIdx : ∀ (xs ys : List WRow) (r : WRow),
    r ∈ mergeIdx xs ys → r ∈ xs ∨ r ∈ ys := by
  intro xs
  induction xs with
  | nil => intro ys r h; exact Or.inr h
  | cons a as ihx =>
    intro ys
    induction ys with
    | nil => intro r h; exact Or.inl h
    | cons b bs ihy =>
      intro r h
      rw [mergeIdx_cons_cons] at h
      by_cases hab : a.idx ≤ b.idx
      · rw [if_pos hab] at h
        rcases List.mem_cons.1 h with h | h
        · exact Or.inl (h ▸ List.mem_cons_self _ _)
        · rcases ihx (b :: bs) r h with h1 | h1
          · exact Or.inl (List.mem_cons_of_mem _ h1)
          · exact Or.inr h1
      · rw [if_neg hab] at h
        rcases List.mem_cons.1 h with h | h
        · exact Or.inr (h ▸ List.mem_cons_self _ _)
        · rcases ihy r h with h1 | h1
          · exact Or.inl h1
          · exact Or.inr (List.mem_cons_of_mem _ h1)

theorem mem_shiftKeep : ∀ (l : List WRow) (prev : Option Int) (r : WRow),
    r ∈ shiftKeep prev l → r ∈ l := by
  intro l
  induction l with
  | nil => intro prev r h; cases prev <;> simp [shiftKeep] at h
  | cons x xs ih =>
    intro prev r h
    cases prev with
    | none =>
      rw [shiftKeep] at h
      rcases List.mem_cons.1 h with h | h
      · exact h ▸ List.mem_cons_self _ _
      · exact List.mem_cons_of_mem _ (ih _ r h)
    | some p =>
      rw [shiftKeep] at h
      by_cases hp : x.pol = p
      · rw [if_pos hp] at h
        exact List.mem_cons_of_mem _ (ih _ r h)
      · rw [if_neg hp] at h
        rcases List.mem_cons.1 h with h | h
        · exact h ▸ List.mem_cons_self _ _
        · exact List.mem_cons_of_mem _ (ih _ r h)

theorem mem_shiftFilter {l : List WRow} {r : WRow} (h : r ∈ shiftFilter l) :
    r ∈ l := mem_shiftKeep l none r h

/-- A row of the deduplicated wave series originates in the rolling-max or
rolling-min series: its value is a fully-formed window extremum. -/
theorem cwavesOf_origin {highs lows : List ℚ} {w : Nat} {r : CRow}
    (h : r ∈ cwavesOf highs lows w) :
    (∃ i, i < highs.length ∧ windowMax highs w i = some r.value) ∨
    (∃ i, i < lows.length ∧ windowMin lows w i = some r.value) := by
  rcases List.mem_filterMap.1 h with ⟨r0, hr0, hmap⟩
  rcases Option.map_eq_some'.1 hmap with ⟨v, hwave, hv⟩
  have hval : r0.wave = some r.value := by rw [hwave]; rw [← hv]
  have hr1 := mem_shiftFilter hr0
  rcases mem_mergeIdx _ _ _ hr1 with h2 | h2
  · have h3 := mem_of_mem_dropDupsBy h2
    rcases List.mem_map.1 h3 with ⟨i, hi, hrow⟩
    refine Or.inl ⟨i, List.mem_range.1 hi, ?_⟩
    rw [← hval, ← hrow]
  · have h3 := mem_of_mem_dropDupsBy h2
    rcases List.mem_map.1 h3 with ⟨i, hi, hrow⟩
    refine Or.inr ⟨i, List.mem_range.1 hi, ?_⟩
    rw [← hval, ← hrow]

theorem windowMax_mem {xs : List ℚ} {w i : Nat} {v : ℚ}
    (h : windowMax xs w i = some v) : v ∈ xs := by
  rw [windowMax] at h
  by_cases hw : w ≤ i + 1
  · rw [if_pos hw] at h
    exact List.mem_of_mem_drop (List.mem_of_mem_take (listMax_mem h))
  · rw [if_neg hw] at h; exact absurd h (by simp)

theorem windowMin_mem {xs : List ℚ} {w i : Nat} {v : ℚ}
    (h : windowMin xs w i = some v) : v ∈ xs := by
  rw [windowMin] at h
  by_cases hw : w ≤ i + 1
  · rw [if_pos hw] at h
    exact List.mem_of_mem_drop (List.mem_of_mem_take (listMin_mem h))
  · rw [if_neg hw] at h; exact absurd h (by simp)

theorem mem_locSelect {ws : List CRow} {r : CRow} :
    ∀ (Ls : List Nat), r ∈ locSelect ws Ls → r ∈ ws := by
  intro Ls
  induction Ls with
  | nil => intro h; simp [locSelect] at h
  | cons L Ls ih =>
    intro h
    rw [locSelect] at h
    rcases List.mem_append.1 h with h | h
    · exact List.mem_of_mem_filter h
    · exact ih h

/-- The second component of the call is the core pipeline on the High and
Low columns; the frame bookkeeping does not feed back into it. -/
theorem calcSR_snd (df : Frame) (w k : Nat) :
    (calculate_support_resistance df w k).2 = corePipeline df.High df.Low w k := by
  cases h : corePipeline df.High df.Low w k <;>
    simp [calculate_support_resistance, h]

/-- Successful runs pass all three scikit-learn guards and return the
selector output on the deduplicated wave series. -/
theorem corePipeline_ok {highs lows : List ℚ} {w k : Nat} {ls : List ℚ}
    (h : corePipeline highs lows w k = .ok ls) :
    1 ≤ k ∧ 2 ≤ (cwavesOf highs lows w).length ∧
    k ≤ (cwavesOf highs lows w).length ∧
    ls = levelsOf (cwavesOf highs lows w) k := by
  simp only [corePipeline] at h
  by_cases hk : k = 0
  · rw [if_pos hk] at h; exact Except.noConfusion h
  rw [if_neg hk] at h
  by_cases h2 : (cwavesOf highs lows w).length < 2
  · rw [if_pos h2] at h; exact Except.noConfusion h
  rw [if_neg h2] at h
  by_cases h3 : (cwavesOf highs lows w).length < k
  · rw [if_pos h3] at h; exact Except.noConfusion h
  rw [if_neg h3] at h
  exact ⟨by omega, by omega, by omega, (Except.ok.inj h).symm⟩

/-- When the window exceeds both column lengths every rolling cell is NaN,
so the deduplicated wave series is empty. -/
theorem cwavesOf_nil_of_short {highs lows : List ℚ} {w : Nat}
    (hh : highs.length < w) (hl : lows.length < w) :
    cwavesOf highs lows w = [] := by
  rw [cwavesOf, List.filterMap_eq_nil_iff]
  intro r hr
  have hr1 := mem_shiftFilter hr
  have hnone : r.wave = none := by
    rcases mem_mergeIdx _ _ _ hr1 with h2 | h2
    · have h3 := mem_of_mem_dropDupsBy h2
      rcases List.mem_map.1 h3 with ⟨i, hi, hrow⟩
      have hi2 : i < highs.length := List.mem_range.1 hi
      rw [← hrow]
      show windowMax highs w i = none
      rw [windowMax, if_neg]; omega
    · have h3 := mem_of_mem_dropDupsBy h2
      rcases List.mem_map.1 h3 with ⟨i, hi, hrow⟩
      have hi2 : i < lows.length := List.mem_range.1 hi
      rw [← hrow]
      show windowMin lows w i = none
      rw [windowMin, if_neg]; omega
  rw [hnone]; rfl

/-! ### Claim C1 -/

/-- Claim C1 (code bug): the final dedup of the level list never happens.
`waves2.waves.drop_duplicates(keep='first', inplace=True)` (app.py line 103)
acts on a copied column, so on a flat two-bar series with one cluster the
code returns the duplicate list `[100, 100]`, not the distinct `[100]` the
claim describes. -/
theorem C1_code_eval :
    (calculate_support_resistance (flatFrame 2) 1 1).2 = .ok [100, 100] := rfl

/-! ### Claim C2 -/

/-- Claim C2 (corrected), counterexample: with highs `[1, 2, 1]` and window 1
the rolling-max value `1` recurs at the non-adjacent position 2, and the
per-polarity dedup of app.py line 89 REMOVES that recurrence (pandas
`drop_duplicates` is global, keep-first), whereas the claim says it is
retained as a separate WavePoint. -/
theorem C2_counterexample :
    WRow.mk 2 (some 1) 1 ∈ maxRows [1, 2, 1] 1 ∧
    WRow.mk 2 (some 1) 1 ∉ max_waves [1, 2, 1] 1 ∧
    max_waves [1, 2, 1] 1 = [⟨0, some 1, 1⟩, ⟨1, some 2, 1⟩] := by decide

/-- Claim C2 (corrected, amended): before the polarity series are merged,
deduplication removes ALL duplicate wave values within EACH single-polarity
series — the rolling-max/+1 series (app.py line 89) and the rolling-min/−1
series (app.py line 90) alike — keeping the first occurrence: consecutive
plateau duplicates collapse, and an equal value recurring at a non-adjacent
position is removed as well.  In each series the surviving rows are a
subsequence of the rolling series with pairwise-distinct wave values
covering every value that occurred. -/
theorem C2_amended_global_dedup (highs lows : List ℚ) (w : Nat) :
    ((max_waves highs w).Sublist (maxRows highs w) ∧
      ((max_waves highs w).map (fun r => r.wave)).Nodup ∧
      ∀ r ∈ maxRows highs w, ∃ s ∈ max_waves highs w, s.wave = r.wave) ∧
    ((min_waves lows w).Sublist (minRows lows w) ∧
      ((min_waves lows w).map (fun r => r.wave)).Nodup ∧
      ∀ r ∈ minRows lows w, ∃ s ∈ min_waves lows w, s.wave = r.wave) := by
  constructor
  · refine ⟨dropDupsBy_sublist _ _ _, dropDupsBy_nodup _ _ _, ?_⟩
    intro r hr
    rcases dropDupsBy_covers _ _ [] r hr with h | h
    · simp at h
    · rcases h with ⟨s, hs, hfs⟩
      exact ⟨s, hs, hfs⟩
  · refine ⟨dropDupsBy_sublist _ _ _, dropDupsBy_nodup _ _ _, ?_⟩
    intro r hr
    rcases dropDupsBy_covers _ _ [] r hr with h | h
    · simp at h
    · rcases h with ⟨s, hs, hfs⟩
      exact ⟨s, hs, hfs⟩

/-! ### Claim C3 -/

/-- Claim C3 (confirmed): on every successful invocation, every returned
level equals some entry of the High column or some entry of the Low column
of the input bars; no level is synthesized or interpolated. -/
theorem C3_value_membership (df : Frame) (w k : Nat) (ls : List ℚ)
    (h : (calculate_support_resistance df w k).2 = .ok ls) :
    ∀ v ∈ ls, v ∈ df.High ∨ v ∈ df.Low := by
  rw [calcSR_snd] at h
  obtain ⟨-, -, -, hls⟩ := corePipeline_ok h
  subst hls
  intro v hv
  simp only [levelsOf] at hv
  rcases List.mem_map.1 hv with ⟨r, hr, hval⟩
  have hrcw := mem_locSelect _ hr
  rcases cwavesOf_origin hrcw with ⟨i, -, hwin⟩ | ⟨i, -, hwin⟩
  · exact Or.inl (hval ▸ windowMax_mem hwin)
  · exact Or.inr (hval ▸ windowMin_mem hwin)

/-- Witness for C3 at a concrete successful run. -/
theorem C3_witness : (100 : ℚ) ∈ (flatFrame 2).High ∨ (100 : ℚ) ∈ (flatFrame 2).Low :=
  C3_value_membership (flatFrame 2) 1 1 [100, 100] rfl 100 (by decide)

/-! ### Claim C4 -/

/-- Claim C4 (corrected), counterexample: with one bar and window length 2
(`len(bars) < windowLength`) the core does not fail with the typed
`InsufficientHistory` or `InvalidParameter` error the claim requires — it
propagates an untyped scikit-learn `ValueError`. -/
theorem C4_counterexample :
    (calculate_support_resistance frameOneBar 2 1).2
        = .error (.valueError "need at least 2 samples") ∧
    CoreError.valueError "need at least 2 samples" ≠ CoreError.insufficientHistory ∧
    CoreError.valueError "need at least 2 samples" ≠ CoreError.invalidParameter := by
  exact ⟨rfl, by decide, by decide⟩

/-- Claim C4 (corrected, amended): if `len(bars) < windowLength` or the
deduplicated wave series has fewer points than `numClusters`, the core does
fail fast — it never returns a truncated or degenerate level list — but the
failure is an untyped `ValueError` escaping from scikit-learn, not a typed
`InsufficientHistory`/`InvalidParameter` error (no such typed errors exist
in the code). -/
theorem C4_amended_error (df : Frame) (w k : Nat)
    (hlen : df.Low.length = df.High.length)
    (hcond : df.High.length < w ∨ (cwavesOf df.High df.Low w).length < k) :
    ∃ msg, (calculate_support_resistance df w k).2 = .error (.valueError msg) := by
  rw [calcSR_snd]
  simp only [corePipeline]
  by_cases hk : k = 0
  · rw [if_pos hk]; exact ⟨_, rfl⟩
  rw [if_neg hk]
  by_cases h2 : (cwavesOf df.High df.Low w).length < 2
  · rw [if_pos h2]; exact ⟨_, rfl⟩
  rw [if_neg h2]
  by_cases h3 : (cwavesOf df.High df.Low w).length < k
  · rw [if_pos h3]; exact ⟨_, rfl⟩
  exfalso
  rcases hcond with hc | hc
  · have hlow : df.Low.length < w := by omega
    rw [cwavesOf_nil_of_short hc hlow] at h2
    simp at h2
  · exact h3 hc

/-- Witness for C4 at a concrete insufficient-history input. -/
theorem C4_witness :
    ∃ msg, (calculate_support_resistance frameOneBar 2 1).2 = .error (.valueError msg) :=
  C4_amended_error frameOneBar 2 1 rfl (Or.inl (by decide))

/-! ### Claim C6 -/

/-- Claim C6 (code bug): the length of the returned level list is NOT always
bounded by `numClusters`.  On a flat two-bar series with `numClusters = 2`
the two surviving wave rows share the index label `0`, the per-cluster
`idxmax` labels are `[0, 0]`, and `waves.loc` expands each requested label to
every matching row, returning 4 levels for 2 clusters. -/
theorem C6_code_eval :
    (calculate_support_resistance (flatFrame 2) 1 2).2 = .ok [100, 100, 100, 100] := rfl

/-! ### Claim C7 -/

/-- Claim C7 (corrected), counterexample: the caller frame is NOT returned
unchanged — `df.reset_index(inplace=True)` (app.py line 82) materialises the
old index as an extra column and line 102 restores only the index, so the
post-call frame differs from the input frame. -/
theorem C7_counterexample :
    (calculate_support_resistance frameC7 1 1).1 ≠ frameC7 := by decide

/-- Claim C7 (corrected, amended): on every successful invocation the call
restores the caller frame index and leaves all five OHLCV columns untouched,
but it appends one extra column holding a copy of the original index — the
frame is mutated, in exactly this way. -/
theorem C7_amended_frame_effect (df : Frame) (w k : Nat) (ls : List ℚ)
    (h : (calculate_support_resistance df w k).2 = .ok ls) :
    (calculate_support_resistance df w k).1.index = df.index ∧
    (calculate_support_resistance df w k).1.Open = df.Open ∧
    (calculate_support_resistance df w k).1.High = df.High ∧
    (calculate_support_resistance df w k).1.Low = df.Low ∧
    (calculate_support_resistance df w k).1.Close = df.Close ∧
    (calculate_support_resistance df w k).1.Volume = df.Volume ∧
    (calculate_support_resistance df w k).1.extraCols
      = df.extraCols ++ [("Date", df.index)] := by
  cases hres : corePipeline df.High df.Low w k with
  | ok ls2 => simp [calculate_support_resistance, hres]
  | error e =>
    rw [calcSR_snd, hres] at h
    exact Except.noConfusion h

/-- Witness for C7 at a concrete successful run. -/
theorem C7_witness :
    (calculate_support_resistance frameC7 1 1).1.index = frameC7.index ∧
    (calculate_support_resistance frameC7 1 1).1.Open = frameC7.Open ∧
    (calculate_support_resistance frameC7 1 1).1.High = frameC7.High ∧
    (calculate_support_resistance frameC7 1 1).1.Low = frameC7.Low ∧
    (calculate_support_resistance frameC7 1 1).1.Close = frameC7.Close ∧
    (calculate_support_resistance frameC7 1 1).1.Volume = frameC7.Volume ∧
    (calculate_support_resistance frameC7 1 1).1.extraCols
      = frameC7.extraCols ++ [("Date", frameC7.index)] :=
  C7_amended_frame_effect frameC7 1 1 [100, 100] rfl

/-! ### Claim C9 -/

/-- Claim C9 (corrected), counterexample: on a flat four-bar series with
`numClusters = 1` the clustering step succeeds, yet the returned sequence
has 2 entries, not exactly `numClusters = 1` — the single selected index
label matches both surviving wave rows. -/
theorem C9_counterexample :
    (calculate_support_resistance (flatFrame 4) 1 1).2 = .ok [100, 100] ∧
    ([100, 100] : List ℚ).length ≠ 1 := by
  exact ⟨rfl, by decide⟩

/-! ### Claim C10 -/

/-- Claim C10 (confirmed): the level sequence depends only on the High and
Low columns and the two parameters — the index, Open, Close and Volume
columns have no influence on the result. -/
theorem C10_noninterference (df1 df2 : Frame) (w k : Nat)
    (hH : df1.High = df2.High) (hL : df1.Low = df2.Low) :
    (calculate_support_resistance df1 w k).2
      = (calculate_support_resistance df2 w k).2 := by
  rw [calcSR_snd, calcSR_snd, hH, hL]

/-- Witness for C10: two frames agreeing only on High/Low produce the same
levels. -/
theorem C10_witness :
    (calculate_support_resistance frameC7 1 1).2
      = (calculate_support_resistance frameC10 1 1).2 :=
  C10_noninterference frameC7 frameC10 1 1 rfl rfl

/-! ### Claim C8 -/

/-- On a non-decreasing column the rolling maxima are non-decreasing across
all fully-formed windows. -/
theorem windowMax_mono {xs : List ℚ} {w i j : Nat} {a b : ℚ}
    (hm : List.Chain' (· ≤ ·) xs) (hij : i ≤ j) (hj : j < xs.length)
    (ha : windowMax xs w i = some a) (hb : windowMax xs w j = some b) : a ≤ b := by
  have hpw : List.Pairwise (· ≤ ·) xs := List.chain'_iff_pairwise.1 hm
  rw [windowMax] at ha hb
  by_cases hwi : w ≤ i + 1
  case neg => rw [if_neg hwi] at ha; exact absurd ha (by simp)
  have hwj : w ≤ j + 1 := by omega
  rw [if_pos hwi] at ha
  rw [if_pos hwj] at hb
  have hw0 : 1 ≤ w := by
    by_contra h0
    have hww : w = 0 := by omega
    subst hww
    simp [listMax] at ha
  rcases List.mem_iff_getElem.1 (listMax_mem ha) with ⟨t, ht, hat⟩
  rw [List.length_take, List.length_drop] at ht
  have hq : (i + 1 - w) + t < xs.length := by omega
  have haq : a = xs[(i + 1 - w) + t] := by
    rw [← hat, List.getElem_take, List.getElem_drop]
  have hslicelen : ((xs.drop (j + 1 - w)).take w).length = w := by
    rw [List.length_take, List.length_drop]; omega
  have hw1 : w - 1 < ((xs.drop (j + 1 - w)).take w).length := by omega
  have hjel : ((xs.drop (j + 1 - w)).take w)[w - 1] = xs[j] := by
    rw [List.getElem_take, List.getElem_drop]
    congr 1
    omega
  have hbj : xs[j] ≤ b := listMax_ge (hjel ▸ List.getElem_mem hw1) hb
  have hxq_le : xs[(i + 1 - w) + t] ≤ xs[j] := by
    rcases Nat.lt_or_ge ((i + 1 - w) + t) j with hlt | hge
    · exact (List.pairwise_iff_getElem.1 hpw) _ _ hq hj hlt
    · have heq : (i + 1 - w) + t = j := by omega
      simp only [heq]
      exact le_refl _
  exact le_trans (le_of_eq haq) (le_trans hxq_le hbj)

/-- On a non-decreasing column the rolling minima are non-decreasing across
all fully-formed windows. -/
theorem windowMin_mono {xs : List ℚ} {w i j : Nat} {a b : ℚ}
    (hm : List.Chain' (· ≤ ·) xs) (hij : i ≤ j) (hj : j < xs.length)
    (ha : windowMin xs w i = some a) (hb : windowMin xs w j = some b) : a ≤ b := by
  have hpw : List.Pairwise (· ≤ ·) xs := List.chain'_iff_pairwise.1 hm
  rw [windowMin] at ha hb
  by_cases hwi : w ≤ i + 1
  case neg => rw [if_neg hwi] at ha; exact absurd ha (by simp)
  have hwj : w ≤ j + 1 := by omega
  rw [if_pos hwi] at ha
  rw [if_pos hwj] at hb
  have hw0 : 1 ≤ w := by
    by_contra h0
    have hww : w = 0 := by omega
    subst hww
    simp [listMin] at ha
  have hi : i < xs.length := by omega
  rcases List.mem_iff_getElem.1 (listMin_mem hb) with ⟨t, ht, hbt⟩
  rw [List.length_take, List.length_drop] at ht
  have hr : (j + 1 - w) + t < xs.length := by omega
  have hbr : b = xs[(j + 1 - w) + t] := by
    rw [← hbt, List.getElem_take, List.getElem_drop]
  have hilen : i - (i + 1 - w) < ((xs.drop (i + 1 - w)).take w).length := by
    rw [List.length_take, List.length_drop]; omega
  have hiel : ((xs.drop (i + 1 - w)).take w)[i - (i + 1 - w)] = xs[i] := by
    rw [List.getElem_take, List.getElem_drop]
    congr 1
    omega
  have hai : a ≤ xs[i] := listMin_le (hiel ▸ List.getElem_mem hilen) ha
  rcases Nat.lt_or_ge i ((j + 1 - w) + t) with hlt | hge
  · have : xs[i] ≤ xs[(j + 1 - w) + t] :=
      (List.pairwise_iff_getElem.1 hpw) _ _ hi hr hlt
    exact le_trans hai (hbr ▸ this)
  · -- the witnessing index of b lies inside the window ending at i
    have hrlen : (j + 1 - w) + t - (i + 1 - w) < ((xs.drop (i + 1 - w)).take w).length := by
      rw [List.length_take, List.length_drop]; omega
    have hrel : ((xs.drop (i + 1 - w)).take w)[(j + 1 - w) + t - (i + 1 - w)]
        = xs[(j + 1 - w) + t] := by
      rw [List.getElem_take, List.getElem_drop]
      congr 1
      omega
    exact hbr ▸ listMin_le (hrel ▸ List.getElem_mem hrlen) ha

/-- Claim C8 (corrected), counterexample: a strictly increasing Close column
does not make the rolling-max series non-decreasing — the rolling extrema
are computed from High and Low, which are unconstrained by Close.  In
`frameC8` the Close column is strictly increasing while the window-1 rolling
maxima decrease from 10 to 9. -/
theorem C8_counterexample :
    List.Chain' (· < ·) frameC8.Close ∧
    windowMax frameC8.High 1 0 = some 10 ∧
    windowMax frameC8.High 1 1 = some 9 ∧
    ¬ ((10 : ℚ) ≤ 9) := by
  refine ⟨?_, rfl, rfl, by norm_num⟩
  show List.Chain' (· < ·) [(1 : ℚ), 2]
  norm_num [List.chain'_cons]

/-- Claim C8 (corrected, amended): if the High column is non-decreasing the
extracted rolling-max series is non-decreasing, and if the Low column is
non-decreasing the extracted rolling-min series is non-decreasing (the
hypothesis must be on High/Low, not on Close, since the rolling windows are
computed from High and Low). -/
theorem C8_amended_monotone :
    (∀ (highs : List ℚ) (w i j : Nat) (a b : ℚ),
        List.Chain' (· ≤ ·) highs → i ≤ j → j < highs.length →
        windowMax highs w i = some a → windowMax highs w j = some b → a ≤ b) ∧
    (∀ (lows : List ℚ) (w i j : Nat) (a b : ℚ),
        List.Chain' (· ≤ ·) lows → i ≤ j → j < lows.length →
        windowMin lows w i = some a → windowMin lows w j = some b → a ≤ b) :=
  ⟨fun _ _ _ _ _ _ hm hij hj ha hb => windowMax_mono hm hij hj ha hb,
   fun _ _ _ _ _ _ hm hij hj ha hb => windowMin_mono hm hij hj ha hb⟩

/-- Witness for C8 on the concrete non-decreasing column `[1, 2]`. -/
theorem C8_witness : ((1 : ℚ) ≤ 2) ∧ ((3 : ℚ) ≤ 4) :=
  ⟨C8_amended_monotone.1 [1, 2] 1 0 1 1 2
      (by norm_num [List.chain'_cons]) (by norm_num) (by norm_num) rfl rfl,
   C8_amended_monotone.2 [3, 4] 1 0 1 3 4
      (by norm_num [List.chain'_cons]) (by norm_num) (by norm_num) rfl rfl⟩

/-! ### Claim C9: clustering invariants -/

theorem mem_pairList {m : Nat} {p : Nat × Nat} (h : p ∈ pairList m) :
    p.1 < p.2 ∧ p.2 < m := by
  rw [pairList] at h
  rcases List.mem_flatten.1 h with ⟨l, hl, hp⟩
  rcases List.mem_map.1 hl with ⟨b, hb, rfl⟩
  rcases List.mem_map.1 hp with ⟨a, ha, rfl⟩
  exact ⟨List.mem_range.1 ha, List.mem_range.1 hb⟩

theorem pairList_has01 {m : Nat} (hm : 2 ≤ m) : (0, 1) ∈ pairList m := by
  rw [pairList]
  apply List.mem_flatten.2
  refine ⟨(List.range 1).map (fun a => (a, 1)), ?_, by simp⟩
  apply List.mem_map.2
  exact ⟨1, List.mem_range.2 (by omega), rfl⟩

theorem bpStep_ne_none (vals : List ℚ) (asg : List Nat)
    (acc : Option (Nat × Nat × ℚ)) (p : Nat × Nat) :
    bpStep vals asg acc p ≠ none := by
  cases acc with
  | none => simp [bpStep]
  | some q =>
    simp only [bpStep]
    by_cases hd : wardD vals asg p.1 p.2 < q.2.2 <;> simp [hd]

theorem foldl_bpStep_none (vals : List ℚ) (asg : List Nat) :
    ∀ (l : List (Nat × Nat)) (acc : Option (Nat × Nat × ℚ)),
      List.foldl (bpStep vals asg) acc l = none → acc = none ∧ l = [] := by
  intro l
  induction l with
  | nil => intro acc h; exact ⟨h, rfl⟩
  | cons p ps ih =>
    intro acc h
    rw [List.foldl_cons] at h
    rcases ih _ h with ⟨h1, -⟩
    exact absurd h1 (bpStep_ne_none vals asg acc p)

theorem foldl_bpStep_bounds (vals : List ℚ) (asg : List Nat) (m : Nat) :
    ∀ (l : List (Nat × Nat)) (acc : Option (Nat × Nat × ℚ)),
      (∀ p ∈ l, p.1 < p.2 ∧ p.2 < m) →
      (∀ q, acc = some q → q.1 < q.2.1 ∧ q.2.1 < m) →
      ∀ q, List.foldl (bpStep vals asg) acc l = some q → q.1 < q.2.1 ∧ q.2.1 < m := by
  intro l
  induction l with
  | nil => intro acc hl hacc q h; exact hacc q h
  | cons p ps ih =>
    intro acc hl hacc q h
    rw [List.foldl_cons] at h
    refine ih _ (fun x hx => hl x (List.mem_cons_of_mem _ hx)) ?_ q h
    intro q2 hq2
    have hp := hl p (List.mem_cons_self _ _)
    cases acc with
    | none =>
      simp only [bpStep, Option.some.injEq] at hq2
      rw [← hq2]
      exact ⟨hp.1, hp.2⟩
    | some q0 =>
      simp only [bpStep] at hq2
      by_cases hd : wardD vals asg p.1 p.2 < q0.2.2
      · rw [if_pos hd] at hq2
        rw [← Option.some.inj hq2]
        exact ⟨hp.1, hp.2⟩
      · rw [if_neg hd] at hq2
        rw [← Option.some.inj hq2]
        exact hacc q0 rfl

theorem bestPair_spec (vals : List ℚ) (asg : List Nat) (m : Nat) (hm : 2 ≤ m) :
    ∃ a b, bestPair vals asg m = some (a, b) ∧ a < b ∧ b < m := by
  rw [bestPair]
  cases hf : List.foldl (bpStep vals asg) none (pairList m) with
  | none =>
    rcases foldl_bpStep_none vals asg _ _ hf with ⟨-, h2⟩
    exact absurd (h2 ▸ pairList_has01 hm) (List.not_mem_nil _)
  | some q =>
    have hb := foldl_bpStep_bounds vals asg m (pairList m) none
      (fun p hp => mem_pairList hp) (fun q hq => Option.noConfusion hq) q hf
    exact ⟨q.1, q.2.1, by simp, hb.1, hb.2⟩

theorem relabel_good {asg : List Nat} {m a b : Nat} (hab : a < b) (hbm : b < m)
    (hbd : ∀ l ∈ asg, l < m) (hsurj : ∀ c, c < m → c ∈ asg) :
    (∀ l ∈ asg.map (relabel a b), l < m - 1) ∧
    (∀ c, c < m - 1 → c ∈ asg.map (relabel a b)) := by
  constructor
  · intro l hl
    rcases List.mem_map.1 hl with ⟨l0, hl0, rfl⟩
    have h0 := hbd l0 hl0
    rw [relabel]
    by_cases h1 : l0 = b
    · rw [if_pos h1]; omega
    rw [if_neg h1]
    by_cases h2 : b < l0
    · rw [if_pos h2]; omega
    · rw [if_neg h2]; omega
  · intro c hc
    by_cases hbc : b ≤ c
    · have hmem := hsurj (c + 1) (by omega)
      have hrel : relabel a b (c + 1) = c := by
        rw [relabel, if_neg (by omega), if_pos (by omega)]
        omega
      exact hrel ▸ List.mem_map_of_mem _ hmem
    · have hmem := hsurj c (by omega)
      have hrel : relabel a b c = c := by
        rw [relabel, if_neg (by omega), if_neg (by omega)]
      exact hrel ▸ List.mem_map_of_mem _ hmem

theorem mergeOnce_good {vals : List ℚ} {st : List Nat × Nat}
    (hbd : ∀ l ∈ st.1, l < st.2) (hsurj : ∀ c, c < st.2 → c ∈ st.1)
    (h2 : 2 ≤ st.2) :
    (mergeOnce vals st).2 = st.2 - 1 ∧
    (mergeOnce vals st).1.length = st.1.length ∧
    (∀ l ∈ (mergeOnce vals st).1, l < st.2 - 1) ∧
    (∀ c, c < st.2 - 1 → c ∈ (mergeOnce vals st).1) := by
  rcases bestPair_spec vals st.1 st.2 h2 with ⟨a, b, hbp, hab, hbm⟩
  rcases relabel_good hab hbm hbd hsurj with ⟨hb1, hb2⟩
  have hmo : mergeOnce vals st = (st.1.map (relabel a b), st.2 - 1) := by
    simp only [mergeOnce, hbp]
  rw [hmo]
  exact ⟨rfl, List.length_map _ _, hb1, hb2⟩

theorem agglom_good (vals : List ℚ) :
    ∀ (t : Nat) (st : List Nat × Nat),
      (∀ l ∈ st.1, l < st.2) → (∀ c, c < st.2 → c ∈ st.1) → t < st.2 →
      (agglom vals t st).2 = st.2 - t ∧
      (agglom vals t st).1.length = st.1.length ∧
      (∀ l ∈ (agglom vals t st).1, l < st.2 - t) ∧
      (∀ c, c < st.2 - t → c ∈ (agglom vals t st).1) := by
  intro t
  induction t with
  | zero =>
    intro st hbd hsurj ht
    exact ⟨rfl, rfl, by simpa using hbd, by simpa using hsurj⟩
  | succ t ih =>
    intro st hbd hsurj ht
    have h2 : 2 ≤ st.2 := by omega
    rcases mergeOnce_good hbd hsurj h2 with ⟨hm2, hmlen, hmb, hms⟩
    have hmb2 : ∀ l ∈ (mergeOnce vals st).1, l < (mergeOnce vals st).2 := by
      rw [hm2]; exact hmb
    have hms2 : ∀ c, c < (mergeOnce vals st).2 → c ∈ (mergeOnce vals st).1 := by
      rw [hm2]; exact hms
    have ht2 : t < (mergeOnce vals st).2 := by omega
    rcases ih (mergeOnce vals st) hmb2 hms2 ht2 with ⟨ha2, halen, hab2, has2⟩
    refine ⟨?_, ?_, ?_, ?_⟩
    · show (agglom vals t (mergeOnce vals st)).2 = st.2 - (t + 1)
      rw [ha2, hm2]; omega
    · show (agglom vals t (mergeOnce vals st)).1.length = st.1.length
      rw [halen, hmlen]
    · show ∀ l ∈ (agglom vals t (mergeOnce vals st)).1, l < st.2 - (t + 1)
      intro l hl
      have := hab2 l hl
      rw [hm2] at this; omega
    · show ∀ c, c < st.2 - (t + 1) → c ∈ (agglom vals t (mergeOnce vals st)).1
      intro c hc
      refine has2 c ?_
      rw [hm2]; omega

theorem labelsOf_good (vals : List ℚ) (k : Nat) (hk : 1 ≤ k)
    (hkn : k ≤ vals.length) :
    (labelsOf vals k).length = vals.length ∧
    (∀ l ∈ labelsOf vals k, l < k) ∧
    (∀ c, c < k → c ∈ labelsOf vals k) := by
  have h := agglom_good vals (vals.length - k) (List.range vals.length, vals.length)
    (by intro l hl; exact List.mem_range.1 hl)
    (by intro c hc; exact List.mem_range.2 hc)
    (by omega)
  rcases h with ⟨h2, hlen, hbd, hsurj⟩
  have hkk : vals.length - (vals.length - k) = k := by omega
  rw [hkk] at hbd hsurj
  refine ⟨?_, hbd, hsurj⟩
  rw [labelsOf] at *
  rw [hlen, List.length_range]

theorem idxmaxFor_mem {cw : List CRow} {labels : List Nat} {c L : Nat}
    (h : idxmaxFor (cw.zip labels) c = some L) : ∃ r ∈ cw, r.idx = L := by
  simp only [idxmaxFor] at h
  cases hm : listMax (((cw.zip labels).filter (fun rl => decide (rl.2 = c))).map
      (fun rl => rl.1.value)) with
  | none => rw [hm] at h; exact Option.noConfusion h
  | some mx =>
    rw [hm] at h
    rcases Option.map_eq_some'.1 h with ⟨rl, hfind, hidx⟩
    have hrl := List.mem_of_find?_eq_some hfind
    have hcw := (List.of_mem_zip (List.mem_of_mem_filter hrl)).1
    exact ⟨rl.1, hcw, hidx⟩

theorem idxmaxFor_isSome {cw : List CRow} {labels : List Nat} {c : Nat}
    (hlen : labels.length = cw.length) (hc : c ∈ labels) :
    ∃ L, idxmaxFor (cw.zip labels) c = some L := by
  rcases List.mem_iff_getElem.1 hc with ⟨p, hp, hpc⟩
  have hpz : p < (cw.zip labels).length := by rw [List.length_zip]; omega
  have hmemz : (cw.zip labels)[p] ∈ cw.zip labels := List.getElem_mem hpz
  have hz : ((cw.zip labels)[p]).2 = c := by
    rw [List.getElem_zip]; exact hpc
  have hgrp : (cw.zip labels)[p] ∈
      (cw.zip labels).filter (fun rl => decide (rl.2 = c)) :=
    List.mem_filter.2 ⟨hmemz, by simp [hpc]⟩
  have hne : ((cw.zip labels).filter (fun rl => decide (rl.2 = c))).map
      (fun rl => rl.1.value) ≠ [] := by
    intro hnil
    rw [List.map_eq_nil_iff] at hnil
    rw [hnil] at hgrp
    exact List.not_mem_nil _ hgrp
  rcases listMax_isSome hne with ⟨mx, hmx⟩
  rcases List.mem_map.1 (listMax_mem hmx) with ⟨rl, hrl, hval⟩
  have hfind : (((cw.zip labels).filter (fun rl => decide (rl.2 = c))).find?
      (fun rl => decide (rl.1.value = mx))).isSome :=
    List.find?_isSome.2 ⟨rl, hrl, by simp [hval]⟩
  rcases Option.isSome_iff_exists.1 hfind with ⟨rl2, hrl2⟩
  refine ⟨rl2.1.idx, ?_⟩
  simp only [idxmaxFor]
  rw [hmx]
  show Option.map (fun rl => rl.1.idx)
      (((cw.zip labels).filter (fun rl => decide (rl.2 = c))).find?
        (fun rl => decide (rl.1.value = mx))) = some rl2.1.idx
  rw [hrl2]
  rfl

theorem filterMap_length_eq {α β : Type} (f : α → Option β) :
    ∀ (l : List α), (∀ x ∈ l, ∃ y, f x = some y) →
      (l.filterMap f).length = l.length := by
  intro l
  induction l with
  | nil => intro h; rfl
  | cons x xs ih =>
    intro h
    rcases h x (List.mem_cons_self _ _) with ⟨y, hy⟩
    rw [List.filterMap_cons, hy]
    simp only [List.length_cons]
    rw [ih (fun z hz => h z (List.mem_cons_of_mem _ hz))]

theorem locSelect_length_ge (ws : List CRow) :
    ∀ (Ls : List Nat), (∀ L ∈ Ls, ∃ r ∈ ws, r.idx = L) →
      Ls.length ≤ (locSelect ws Ls).length := by
  intro Ls
  induction Ls with
  | nil => intro h; simp [locSelect]
  | cons L Ls ih =>
    intro h
    rw [locSelect, List.length_append, List.length_cons]
    have h1 : 1 ≤ (ws.filter (fun r => decide (r.idx = L))).length := by
      rcases h L (List.mem_cons_self _ _) with ⟨r, hr, hid⟩
      exact List.length_pos_of_mem (List.mem_filter.2 ⟨hr, by simp [hid]⟩)
    have h2 := ih (fun L2 hL2 => h L2 (List.mem_cons_of_mem _ hL2))
    omega

theorem levelsOf_length_ge (cw : List CRow) (k : Nat) (hk : 1 ≤ k)
    (hkle : k ≤ cw.length) : k ≤ (levelsOf cw k).length := by
  simp only [levelsOf]
  have hvlen : (cw.map (fun r => r.value)).length = cw.length := List.length_map _ _
  rcases labelsOf_good (cw.map (fun r => r.value)) k hk (by omega) with
    ⟨hlen, hbd, hsurj⟩
  have hkeys : (List.range k).filter
      (fun c => decide (c ∈ labelsOf (cw.map (fun r => r.value)) k)) = List.range k := by
    rw [List.filter_eq_self]
    intro c hc
    exact decide_eq_true (hsurj c (List.mem_range.1 hc))
  rw [hkeys]
  have hlen2 : (labelsOf (cw.map (fun r => r.value)) k).length = cw.length := by
    rw [hlen, hvlen]
  have hall : ∀ c ∈ List.range k,
      ∃ L, idxmaxFor (cw.zip (labelsOf (cw.map (fun r => r.value)) k)) c = some L :=
    fun c hc => idxmaxFor_isSome hlen2 (hsurj c (List.mem_range.1 hc))
  have hflen : ((List.range k).filterMap
      (fun c => idxmaxFor (cw.zip (labelsOf (cw.map (fun r => r.value)) k)) c)).length
        = k := by
    rw [filterMap_length_eq _ _ hall, List.length_range]
  have hloc : ∀ L ∈ (List.range k).filterMap
      (fun c => idxmaxFor (cw.zip (labelsOf (cw.map (fun r => r.value)) k)) c),
      ∃ r ∈ cw, r.idx = L := by
    intro L hL
    rcases List.mem_filterMap.1 hL with ⟨c, -, hsome⟩
    exact idxmaxFor_mem hsome
  rw [List.length_map]
  calc k = _ := hflen.symm
    _ ≤ _ := locSelect_length_ge cw _ hloc

/-- Claim C9 (corrected, amended): whenever the call succeeds, the returned
sequence has at least `numClusters` entries — every cluster id in
`[0, numClusters)` is assigned to at least one wave point and its group
contributes at least one row; duplicate index labels can only add rows. -/
theorem C9_amended_lower_bound (df : Frame) (w k : Nat) (ls : List ℚ)
    (h : (calculate_support_resistance df w k).2 = .ok ls) : k ≤ ls.length := by
  rw [calcSR_snd] at h
  obtain ⟨hk, -, h3, hls⟩ := corePipeline_ok h
  subst hls
  exact levelsOf_length_ge _ k hk h3

/-- Witness for C9 at a concrete successful run. -/
theorem C9_witness : 1 ≤ ([100, 100] : List ℚ).length :=
  C9_amended_lower_bound (flatFrame 2) 1 1 [100, 100] rfl

/-! ### Claim C5: flat series -/

theorem dropDupsBy_seen_nil (f : WRow → Option ℚ) :
    ∀ (l : List WRow) (seen : List (Option ℚ)), (∀ r ∈ l, f r ∈ seen) →
      dropDupsBy f l seen = [] := by
  intro l
  induction l with
  | nil => intro seen h; rfl
  | cons x xs ih =>
    intro seen h
    rw [dropDupsBy, if_pos (h x (List.mem_cons_self _ _))]
    exact ih seen (fun r hr => h r (List.mem_cons_of_mem _ hr))

theorem dropDupsBy_append_seen (f : WRow → Option ℚ) :
    ∀ (A B : List WRow) (seen : List (Option ℚ)), (∀ r ∈ A, f r ∈ seen) →
      dropDupsBy f (A ++ B) seen = dropDupsBy f B seen := by
  intro A
  induction A with
  | nil => intro B seen h; rfl
  | cons x xs ih =>
    intro B seen h
    rw [List.cons_append, dropDupsBy, if_pos (h x (List.mem_cons_self _ _))]
    exact ih B seen (fun r hr => h r (List.mem_cons_of_mem _ hr))

theorem listMax_replicate : ∀ (w : Nat), 1 ≤ w →
    listMax (List.replicate w (100 : ℚ)) = some 100 := by
  intro w
  induction w with
  | zero => intro h; omega
  | succ w ih =>
    intro h
    by_cases hw : w = 0
    · subst hw; rfl
    · rw [List.replicate_succ, listMax, ih (by omega)]
      simp

theorem listMin_replicate : ∀ (w : Nat), 1 ≤ w →
    listMin (List.replicate w (100 : ℚ)) = some 100 := by
  intro w
  induction w with
  | zero => intro h; omega
  | succ w ih =>
    intro h
    by_cases hw : w = 0
    · subst hw; rfl
    · rw [List.replicate_succ, listMin, ih (by omega)]
      simp

theorem flat_windowMax {n w i : Nat} (hw : 1 ≤ w) (hi : i < n) :
    windowMax (List.replicate n (100 : ℚ)) w i =
      if w ≤ i + 1 then some 100 else none := by
  rw [windowMax]
  by_cases h : w ≤ i + 1
  · rw [if_pos h, if_pos h, List.drop_replicate, List.take_replicate]
    rw [show min w (n - (i + 1 - w)) = w from by omega]
    exact listMax_replicate w hw
  · rw [if_neg h, if_neg h]

theorem flat_windowMin {n w i : Nat} (hw : 1 ≤ w) (hi : i < n) :
    windowMin (List.replicate n (100 : ℚ)) w i =
      if w ≤ i + 1 then some 100 else none := by
  rw [windowMin]
  by_cases h : w ≤ i + 1
  · rw [if_pos h, if_pos h, List.drop_replicate, List.take_replicate]
    rw [show min w (n - (i + 1 - w)) = w from by omega]
    exact listMin_replicate w hw
  · rw [if_neg h, if_neg h]


/-- Dedup of a flat single-polarity series with no NaN prefix (window 1):
only the first row survives. -/
theorem dropDups_flat_one (p : Int) (v : ℚ) (wv : Nat → Option ℚ) (B : List Nat)
    (h0 : wv 0 = some v) (hB : ∀ i ∈ B, wv i = some v) :
    dropDupsBy (fun r => r.wave) ((0 :: B).map (fun i => ⟨i, wv i, p⟩)) []
      = [⟨0, some v, p⟩] := by
  have hblk : ∀ r ∈ B.map (fun i => (⟨i, wv i, p⟩ : WRow)),
      (fun r => r.wave) r ∈ [some v] := by
    intro r hr
    rcases List.mem_map.1 hr with ⟨i, hi, rfl⟩
    show wv i ∈ [some v]
    rw [hB i hi]
    exact List.mem_singleton.2 rfl
  rw [List.map_cons, dropDupsBy, if_neg (List.not_mem_nil _)]
  show (⟨0, wv 0, p⟩ : WRow) :: dropDupsBy (fun r => r.wave)
      (B.map (fun i => ⟨i, wv i, p⟩)) [wv 0] = [⟨0, some v, p⟩]
  rw [h0, dropDupsBy_seen_nil _ _ _ hblk]

/-- Dedup of a flat single-polarity series with a NaN prefix (window `≥ 2`):
the first NaN row and the first fully-formed row survive. -/
theorem dropDups_flat_two (p : Int) (v : ℚ) (wv : Nat → Option ℚ)
    (A B : List Nat) (w1 : Nat)
    (h0 : wv 0 = none) (hA : ∀ i ∈ A, wv i = none)
    (hw1 : wv w1 = some v) (hB : ∀ i ∈ B, wv i = some v) :
    dropDupsBy (fun r => r.wave)
      ((0 :: (A ++ (w1 :: B))).map (fun i => ⟨i, wv i, p⟩)) []
      = [⟨0, none, p⟩, ⟨w1, some v, p⟩] := by
  have hblkA : ∀ r ∈ A.map (fun i => (⟨i, wv i, p⟩ : WRow)),
      (fun r => r.wave) r ∈ [(none : Option ℚ)] := by
    intro r hr
    rcases List.mem_map.1 hr with ⟨i, hi, rfl⟩
    show wv i ∈ [(none : Option ℚ)]
    rw [hA i hi]
    exact List.mem_singleton.2 rfl
  have hblkB : ∀ r ∈ B.map (fun i => (⟨i, wv i, p⟩ : WRow)),
      (fun r => r.wave) r ∈ [some v, (none : Option ℚ)] := by
    intro r hr
    rcases List.mem_map.1 hr with ⟨i, hi, rfl⟩
    show wv i ∈ [some v, (none : Option ℚ)]
    rw [hB i hi]
    exact List.mem_cons_self _ _
  rw [List.map_cons, dropDupsBy, if_neg (List.not_mem_nil _)]
  show (⟨0, wv 0, p⟩ : WRow) :: dropDupsBy (fun r => r.wave)
      ((A ++ (w1 :: B)).map (fun i => ⟨i, wv i, p⟩)) [wv 0]
      = [⟨0, none, p⟩, ⟨w1, some v, p⟩]
  rw [h0, List.map_append, dropDupsBy_append_seen _ _ _ _ hblkA, List.map_cons]
  have hnm : ¬ ((fun (r : WRow) => r.wave)
      ((fun (i : Nat) => (⟨i, wv i, p⟩ : WRow)) w1) ∈ [(none : Option ℚ)]) := by
    show ¬ (wv w1 ∈ [(none : Option ℚ)])
    rw [hw1]
    simp
  rw [dropDupsBy, if_neg hnm]
  show (⟨0, (none : Option ℚ), p⟩ : WRow) :: ((⟨w1, wv w1, p⟩ : WRow) ::
      dropDupsBy (fun r => r.wave) (B.map (fun i => ⟨i, wv i, p⟩))
        [wv w1, (none : Option ℚ)])
      = [⟨0, none, p⟩, ⟨w1, some v, p⟩]
  rw [hw1, dropDupsBy_seen_nil _ _ _ hblkB]

theorem flat_max_waves {n w : Nat} (hw : 1 ≤ w) (hwn : w ≤ n) :
    max_waves (List.replicate n 100) w =
      if w = 1 then [⟨0, some 100, 1⟩]
      else [⟨0, none, 1⟩, ⟨w - 1, some 100, 1⟩] := by
  obtain ⟨m, rfl⟩ : ∃ m, n = m + 1 := ⟨n - 1, by omega⟩
  rw [max_waves, maxRows, List.length_replicate, List.range_eq_range']
  by_cases h1 : w = 1
  · subst h1
    rw [if_pos rfl]
    have hsplit : List.range' 0 (m + 1) = 0 :: List.range' 1 m := by
      simpa using List.range'_succ 0 m 1
    rw [hsplit]
    refine dropDups_flat_one 1 100 _ (List.range' 1 m) ?_ ?_
    · have h0n : (0 : Nat) < m + 1 := by omega
      rw [flat_windowMax hw h0n]
      exact if_pos (by omega)
    · intro i hi
      have hib := List.mem_range'_1.1 hi
      have hin : i < m + 1 := by omega
      rw [flat_windowMax hw hin]
      exact if_pos (by omega)
  · rw [if_neg h1]
    have hw2 : 2 ≤ w := by omega
    have hsplit : List.range' 0 (m + 1) =
        0 :: (List.range' 1 (w - 2) ++ ((w - 1) :: List.range' w (m + 1 - w))) := by
      have e1 : List.range' 0 (m + 1) = 0 :: List.range' 1 m := by
        simpa using List.range'_succ 0 m 1
      have e2 : List.range' 1 m =
          List.range' 1 (w - 2) ++ List.range' (w - 1) (m - (w - 2)) := by
        rw [show w - 1 = 1 + (w - 2) from by omega, List.range'_append_1,
            show m - (w - 2) + (w - 2) = m from by omega]
      have e3 : List.range' (w - 1) (m - (w - 2)) =
          (w - 1) :: List.range' w (m + 1 - w) := by
        rw [show m - (w - 2) = (m + 1 - w) + 1 from by omega, List.range'_succ,
            show w - 1 + 1 = w from by omega]
      rw [e1, e2, e3]
    rw [hsplit]
    refine dropDups_flat_two 1 100 _ (List.range' 1 (w - 2))
      (List.range' w (m + 1 - w)) (w - 1) ?_ ?_ ?_ ?_
    · have h0n : (0 : Nat) < m + 1 := by omega
      rw [flat_windowMax hw h0n]
      exact if_neg (by omega)
    · intro i hi
      have hib := List.mem_range'_1.1 hi
      have hin : i < m + 1 := by omega
      rw [flat_windowMax hw hin]
      exact if_neg (by omega)
    · have hwn1 : w - 1 < m + 1 := by omega
      rw [flat_windowMax hw hwn1]
      exact if_pos (by omega)
    · intro i hi
      have hib := List.mem_range'_1.1 hi
      have hin : i < m + 1 := by omega
      rw [flat_windowMax hw hin]
      exact if_pos (by omega)

theorem flat_min_waves {n w : Nat} (hw : 1 ≤ w) (hwn : w ≤ n) :
    min_waves (List.replicate n 100) w =
      if w = 1 then [⟨0, some 100, -1⟩]
      else [⟨0, none, -1⟩, ⟨w - 1, some 100, -1⟩] := by
  obtain ⟨m, rfl⟩ : ∃ m, n = m + 1 := ⟨n - 1, by omega⟩
  rw [min_waves, minRows, List.length_replicate, List.range_eq_range']
  by_cases h1 : w = 1
  · subst h1
    rw [if_pos rfl]
    have hsplit : List.range' 0 (m + 1) = 0 :: List.range' 1 m := by
      simpa using List.range'_succ 0 m 1
    rw [hsplit]
    refine dropDups_flat_one (-1) 100 _ (List.range' 1 m) ?_ ?_
    · have h0n : (0 : Nat) < m + 1 := by omega
      rw [flat_windowMin hw h0n]
      exact if_pos (by omega)
    · intro i hi
      have hib := List.mem_range'_1.1 hi
      have hin : i < m + 1 := by omega
      rw [flat_windowMin hw hin]
      exact if_pos (by omega)
  · rw [if_neg h1]
    have hw2 : 2 ≤ w := by omega
    have hsplit : List.range' 0 (m + 1) =
        0 :: (List.range' 1 (w - 2) ++ ((w - 1) :: List.range' w (m + 1 - w))) := by
      have e1 : List.range' 0 (m + 1) = 0 :: List.range' 1 m := by
        simpa using List.range'_succ 0 m 1
      have e2 : List.range' 1 m =
          List.range' 1 (w - 2) ++ List.range' (w - 1) (m - (w - 2)) := by
        rw [show w - 1 = 1 + (w - 2) from by omega, List.range'_append_1,
            show m - (w - 2) + (w - 2) = m from by omega]
      have e3 : List.range' (w - 1) (m - (w - 2)) =
          (w - 1) :: List.range' w (m + 1 - w) := by
        rw [show m - (w - 2) = (m + 1 - w) + 1 from by omega, List.range'_succ,
            show w - 1 + 1 = w from by omega]
      rw [e1, e2, e3]
    rw [hsplit]
    refine dropDups_flat_two (-1) 100 _ (List.range' 1 (w - 2))
      (List.range' w (m + 1 - w)) (w - 1) ?_ ?_ ?_ ?_
    · have h0n : (0 : Nat) < m + 1 := by omega
      rw [flat_windowMin hw h0n]
      exact if_neg (by omega)
    · intro i hi
      have hib := List.mem_range'_1.1 hi
      have hin : i < m + 1 := by omega
      rw [flat_windowMin hw hin]
      exact if_neg (by omega)
    · have hwn1 : w - 1 < m + 1 := by omega
      rw [flat_windowMin hw hwn1]
      exact if_pos (by omega)
    · intro i hi
      have hib := List.mem_range'_1.1 hi
      have hin : i < m + 1 := by omega
      rw [flat_windowMin hw hin]
      exact if_pos (by omega)

/-- On a flat series the deduplicated wave series is exactly one rolling-max
point and one rolling-min point, both carrying the flat price. -/
theorem flat_cwaves {n w : Nat} (hw : 1 ≤ w) (hwn : w ≤ n) :
    cwavesOf (List.replicate n 100) (List.replicate n 100) w =
      [⟨w - 1, 100, 1⟩, ⟨w - 1, 100, -1⟩] := by
  rw [cwavesOf, flat_max_waves hw hwn, flat_min_waves hw hwn]
  by_cases h1 : w = 1
  · subst h1
    rw [if_pos rfl, if_pos rfl]
    rfl
  · rw [if_neg h1, if_neg h1]
    have hge : ¬ (w - 1 ≤ 0) := by omega
    have hmerge : mergeIdx [⟨0, none, 1⟩, ⟨w - 1, some 100, 1⟩]
        [⟨0, none, -1⟩, ⟨w - 1, some 100, -1⟩] =
        [⟨0, none, 1⟩, ⟨0, none, -1⟩, ⟨w - 1, some 100, 1⟩, ⟨w - 1, some 100, -1⟩] := by
      rw [mergeIdx_cons_cons]
      rw [if_pos (by norm_num : ((⟨0, none, 1⟩ : WRow)).idx ≤ ((⟨0, none, -1⟩ : WRow)).idx)]
      rw [mergeIdx_cons_cons]
      rw [if_neg (by simpa using hge :
        ¬ ((⟨w - 1, some 100, 1⟩ : WRow)).idx ≤ ((⟨0, none, -1⟩ : WRow)).idx)]
      rw [mergeIdx_cons_cons]
      rw [if_pos (le_refl _ :
        ((⟨w - 1, some 100, 1⟩ : WRow)).idx ≤ ((⟨w - 1, some 100, -1⟩ : WRow)).idx)]
      rfl
    rw [hmerge]
    have hshift : shiftFilter
        [⟨0, none, 1⟩, ⟨0, none, -1⟩, ⟨w - 1, some 100, 1⟩, ⟨w - 1, some 100, -1⟩] =
        [⟨0, none, 1⟩, ⟨0, none, -1⟩, ⟨w - 1, some 100, 1⟩, ⟨w - 1, some 100, -1⟩] := by
      rw [shiftFilter, shiftKeep, shiftKeep]
      norm_num
      rw [shiftKeep]
      norm_num
      rw [shiftKeep]
      norm_num
      rfl
    rw [hshift]
    rfl

/-- Claim C5 (corrected), counterexample: on a flat three-bar series with
window 2 and one cluster the code does NOT return `[100]` — both surviving
wave rows share one index label, `waves.loc` returns both, and the line-103
dedup is a no-op, so the result is `[100, 100]`. -/
theorem C5_counterexample :
    (calculate_support_resistance (flatFrame 3) 2 1).2 ≠ .ok [100] := by decide

/-- Claim C5 (corrected, amended): on every flat bar series
(`high = low = 100`) with `1 ≤ windowLength ≤ len(bars)`, deduplication
collapses the wave candidates to exactly TWO wave points (the same value
with polarity `+1` and `-1`, both at the first fully-formed window), and
with `numClusters = 1` the returned level sequence is `[100, 100]`, not
`[100]`. -/
theorem C5_amended_flat (n w : Nat) (hw : 1 ≤ w) (hwn : w ≤ n) :
    cwavesOf (List.replicate n 100) (List.replicate n 100) w =
      [⟨w - 1, 100, 1⟩, ⟨w - 1, 100, -1⟩] ∧
    (calculate_support_resistance (flatFrame n) w 1).2 = .ok [100, 100] := by
  refine ⟨flat_cwaves hw hwn, ?_⟩
  have hfil : ([⟨w - 1, 100, 1⟩, ⟨w - 1, 100, -1⟩] : List CRow).filter
      (fun r => decide (r.idx = w - 1)) = [⟨w - 1, 100, 1⟩, ⟨w - 1, 100, -1⟩] := by
    rw [List.filter_eq_self]
    intro r hr
    rcases List.mem_cons.1 hr with h | h
    · subst h; exact decide_eq_true rfl
    · have h2 := List.mem_singleton.1 h
      subst h2; exact decide_eq_true rfl
  have hloc : locSelect [⟨w - 1, 100, 1⟩, ⟨w - 1, 100, -1⟩] [w - 1]
      = [⟨w - 1, 100, 1⟩, ⟨w - 1, 100, -1⟩] := by
    rw [locSelect, locSelect, hfil, List.append_nil]
  have hidxser : ([0] : List Nat).filterMap
      (fun c => idxmaxFor ([(⟨w - 1, 100, 1⟩, 0), (⟨w - 1, 100, -1⟩, 0)] :
        List (CRow × Nat)) c) = [w - 1] := by
    rw [List.filterMap_cons,
        show idxmaxFor ([(⟨w - 1, 100, 1⟩, 0), (⟨w - 1, 100, -1⟩, 0)] :
          List (CRow × Nat)) 0 = some (w - 1) from rfl]
    rfl
  have hlev : levelsOf [⟨w - 1, 100, 1⟩, ⟨w - 1, 100, -1⟩] 1 = [100, 100] := by
    simp only [levelsOf]
    rw [show ([⟨w - 1, 100, 1⟩, ⟨w - 1, 100, -1⟩] : List CRow).map
          (fun r => r.value) = [100, 100] from rfl,
        show labelsOf ([100, 100] : List ℚ) 1 = [0, 0] from rfl,
        show ([⟨w - 1, 100, 1⟩, ⟨w - 1, 100, -1⟩] : List CRow).zip
          ([0, 0] : List Nat)
          = [(⟨w - 1, 100, 1⟩, 0), (⟨w - 1, 100, -1⟩, 0)] from rfl,
        show (List.range 1).filter (fun c => decide (c ∈ ([0, 0] : List Nat)))
          = [0] from rfl,
        hidxser, hloc]
    rfl
  rw [calcSR_snd]
  show corePipeline (List.replicate n 100) (List.replicate n 100) w 1 = .ok [100, 100]
  simp only [corePipeline]
  rw [flat_cwaves hw hwn]
  norm_num
  exact hlev

/-- Witness for C5 at a concrete flat input. -/
theorem C5_witness :
    cwavesOf (List.replicate 2 100) (List.replicate 2 100) 1 =
      [⟨0, 100, 1⟩, ⟨0, 100, -1⟩] ∧
    (calculate_support_resistance (flatFrame 2) 1 1).2 = .ok [100, 100] :=
  C5_amended_flat 2 1 (by norm_num) (by norm_num)
